import Mathlib

/-!
Verification of the Celestial Object Classifier acquisition-and-normalization
pipeline (src/generate_images.py, src/astro_img_handling.py) against its
natural-language specification.

Images are embedded as lists of rows of natural-number intensities (or, for
the corner scans, as index functions over explicit row/column counts);
coordinates as pairs of rationals; the float arithmetic of the sampler and
of the rotation-angle estimate as exact real/rational arithmetic.
-/

namespace COC

/-! ## Column scans of the zoom check (generate_images.py, is_zoomed_in)

The source scans column 0 top-to-bottom and bottom-to-top for the first pixel
strictly below the white value 255, then reports zoomed-in exactly when the
two hits exist and differ. -/

/-- First index of the list whose entry satisfies the predicate, scanning
front to back; mirrors the top-to-bottom early-exit loop. -/
def scanFirst (p : Nat → Bool) : List Nat → Option Nat
  | [] => none
  | v :: rest => if p v then some 0 else (scanFirst p rest).map (· + 1)

/-- Last index of the list whose entry satisfies the predicate; mirrors the
bottom-to-top early-exit loop (first hit of the reversed scan). -/
def scanLast (p : Nat → Bool) : List Nat → Option Nat
  | [] => none
  | v :: rest =>
    match scanLast p rest with
    | some k => some (k + 1)
    | none => if p v then some 0 else none

/-- Column 0 of an image, as read by the zoom check (`image_data[row_idx, 0]`);
every row of a decoded image is nonempty, so the default is immaterial. -/
def column0 (img : List (List Nat)) : List Nat :=
  img.map (fun row => row.headD 255)

/-- Model of `AstroImgManager.__is_zoomed_in` (generate_images.py lines
216-248): zoomed-in iff the two column-0 scans both hit and hit
different rows. -/
def is_zoomed_in (img : List (List Nat)) : Bool :=
  let f := scanFirst (fun v => decide (v < 255)) (column0 img)
  let s := scanLast (fun v => decide (v < 255)) (column0 img)
  decide (f ≠ s) && f.isSome && s.isSome

/-! ## Corner detection (generate_images.py, find_corners)

The four traversal orders of the early-exit double loops: top edge row-major,
bottom edge reverse-row-major, left edge column-major, right edge
reverse-column-major.  An image is an index function together with its
row and column counts (`np.shape`). -/

def gridRowMajor (numRows numCols : Nat) : List (Nat × Nat) :=
  (List.range numRows).flatMap
    (fun r => (List.range numCols).map (fun c => (r, c)))

def gridRowMajorRev (numRows numCols : Nat) : List (Nat × Nat) :=
  (List.range numRows).reverse.flatMap
    (fun r => (List.range numCols).map (fun c => (r, c)))

def gridColMajor (numRows numCols : Nat) : List (Nat × Nat) :=
  (List.range numCols).flatMap
    (fun c => (List.range numRows).map (fun r => (r, c)))

def gridColMajorRev (numRows numCols : Nat) : List (Nat × Nat) :=
  (List.range numCols).reverse.flatMap
    (fun c => (List.range numRows).map (fun r => (r, c)))

/-- One early-exit double loop of `__find_corners`: the first index pair in
the given traversal order whose pixel satisfies
`greater_or_less_than(image[r, c], pixel_value)`, returned with its pixel
value; `none` models the loop falling through with its corner variable
unassigned. -/
def scanCorner (gltb : Nat → Nat → Bool) (pixel_value : Nat)
    (image : Nat → Nat → Nat) (idxs : List (Nat × Nat)) :
    Option (Nat × Nat × Nat) :=
  match idxs.find? (fun rc => gltb (image rc.1 rc.2) pixel_value) with
  | some rc => some (rc.1, rc.2, image rc.1 rc.2)
  | none => none

/-- Model of `AstroImgManager.__find_corners` (generate_images.py lines
250-305): the four independent scans, in source order
(top, bottom, left, right). -/
def find_corners (image : Nat → Nat → Nat) (numRows numCols : Nat)
    (gltb : Nat → Nat → Bool) (pixel_value : Nat) :
    Option (Nat × Nat × Nat) × Option (Nat × Nat × Nat) ×
    Option (Nat × Nat × Nat) × Option (Nat × Nat × Nat) :=
  (scanCorner gltb pixel_value image (gridRowMajor numRows numCols),
   scanCorner gltb pixel_value image (gridRowMajorRev numRows numCols),
   scanCorner gltb pixel_value image (gridColMajor numRows numCols),
   scanCorner gltb pixel_value image (gridColMajorRev numRows numCols))

/-! ## Grouping and group selection (fetch_img, both sources)

Query rows are (location, URL) pairs; locations are rational pairs standing
for the float (RA, DEC) keys.  Grouping follows the insertion-ordered dict:
keys appear in order of first occurrence, URLs append in row order. -/

/-- A sky location, (right ascension, declination). -/
abbrev Loc : Type := ℚ × ℚ

/-- One row of the archive query result: location key and image URL. -/
abbrev QueryRow : Type := Loc × String

/-- Body of the grouping loop over one query row: append the URL to the
row's location group if the key is present, else insert a new group at
the end (insertion-ordered dict semantics). -/
def groupStep (acc : List (Loc × List String)) (row : QueryRow) :
    List (Loc × List String) :=
  if acc.any (fun g => decide (g.1 = row.1)) then
    acc.map (fun g => if g.1 = row.1 then (g.1, g.2 ++ [row.2]) else g)
  else acc ++ [(row.1, [row.2])]

/-- Model of the grouping loop over query rows (`grouped_img_urls`): an
insertion-ordered association list from location to its URL list. -/
def groupByLoc (rows : List QueryRow) : List (Loc × List String) :=
  rows.foldl groupStep []

/-- Model of `np.argmax`: index of the first occurrence of the maximum
(later entries replace the incumbent only when strictly greater). -/
def argmax : List Nat → Nat
  | [] => 0
  | x :: xs =>
    let t := argmax xs
    if xs.getD t 0 > x then t + 1 else 0

/-- Minimum number of exposures required for stacking. -/
def MIN_NUM_EXPOSURES : Nat := 5

/-- Outcome of a manual-processing fetch attempt, as routed by the
control flow of `__fetch_img`. -/
inductive FetchStep where
  | crashNameError
  | raiseEmptySearch
  | raiseNotEnoughExposures
  | download (loc : Loc) (urls : List String)
  deriving DecidableEq, Repr

/-- Result of the archive query as seen by the try-block of `__fetch_img`:
either a row table or a ValueError from malformed query parameters. -/
inductive QueryOutcome where
  | ok (rows : List QueryRow)
  | valueError
  deriving DecidableEq

/-- Model of the manual-processing path of `__fetch_img` (generate_images.py
lines 125-180, astro_img_handling.py lines 134-175): a ValueError from the
query is only printed, so control falls through to the grouping loop where
the unassigned table raises a NameError; an empty table raises EmptySearch;
otherwise the group at the argmax of the URL-list lengths is selected and
NotEnoughExposures is raised when it holds fewer than MIN_NUM_EXPOSURES
URLs. -/
def fetch_img_manual (q : QueryOutcome) : FetchStep :=
  match q with
  | .valueError => .crashNameError
  | .ok rows =>
    if rows.length = 0 then .raiseEmptySearch
    else
      let grouped := groupByLoc rows
      let loc_index := argmax (grouped.map (fun g => g.2.length))
      let exposure_urls := (grouped.map (fun g => g.2)).getD loc_index []
      if exposure_urls.length < MIN_NUM_EXPOSURES then .raiseNotEnoughExposures
      else .download ((grouped.map (fun g => g.1)).getD loc_index (0, 0))
          exposure_urls

/-! ## The try/except around the query (C9)

The environment after the try-block of `__fetch_img`: whether `img_table`
was assigned, and what was printed.  A ValueError is caught and only
logged; EmptySearch propagates. -/

/-- Exceptions classified by the callers of `__fetch_img`. -/
inductive FetchExc where
  | emptySearch
  | notEnoughExposures
  deriving DecidableEq

/-- Environment after the try/except block guarding the archive query:
the possibly-unassigned `img_table` and the log output. -/
structure TryEnv where
  imgTable : Option (List QueryRow)
  logged : List String
  deriving DecidableEq

/-- Model of the try/except block of `__fetch_img` (generate_images.py lines
125-139): on ValueError the handler only prints and execution continues with
`img_table` unassigned; an empty table raises EmptySearch out of the block. -/
def fetch_img_after_try (q : QueryOutcome) : Except FetchExc TryEnv :=
  match q with
  | .valueError => .ok ⟨none, ["ERROR: Invalid query options"]⟩
  | .ok rows =>
    if rows.length = 0 then .error .emptySearch
    else .ok ⟨some rows, []⟩

/-- The first use of `img_table` after the try/except (the grouping loop):
referencing it while unassigned is a NameError crash, modelled as `none`. -/
def read_img_table (env : TryEnv) : Option (List QueryRow) :=
  env.imgTable

/-! ## Exposure scratch files and the retry/resample handlers (C2, C3)

File states are lists of file names in the data directory; the cleanup
helper removes exactly the files matching the `exposure_*` + IMG_EXT glob. -/

/-- The image file extension (`IMG_EXT`). -/
def IMG_EXT : String := ".jpeg"

/-- Whether a file name matches the `exposure_*` + IMG_EXT glob used by
`remove_exposures` (matching on the character list). -/
def isExposureScratch (f : String) : Bool :=
  "exposure_".data.isPrefixOf f.data && IMG_EXT.data.isSuffixOf f.data

/-- Model of `remove_exposures`: delete every file matching the glob. -/
def remove_exposures (files : List String) : List String :=
  files.filter (fun f => ! isExposureScratch f)

/-- How one fetch attempt at a location ends, as classified by the except
clauses of the two controllers. -/
inductive AttemptOutcome where
  | success
  | connectionFailure
  | semanticFailure
  deriving DecidableEq

/-- Effect of one loop iteration's exception handling in
`AstroImgManager.gen_img_set` (generate_images.py lines 72-90): the file
state afterwards, the location of the next query, and whether the current
location was committed to `prev_locs`. -/
def step_generate_images (o : AttemptOutcome) (process_manually : Bool)
    (files : List String) (loc nextRandLoc : Loc) :
    List String × Loc × Bool :=
  match o with
  | .success => (files, loc, true)
  | .connectionFailure =>
    ((if process_manually then remove_exposures files else files), loc, false)
  | .semanticFailure =>
    ((if process_manually then remove_exposures files else files),
      nextRandLoc, false)

/-- Effect of one loop iteration's exception handling in the module-level
`gen_img_set` (astro_img_handling.py lines 57-78): semantic failures call
`remove_exposures` and resample; connection failures retry the same
location without any cleanup. -/
def step_astro_img_handling (o : AttemptOutcome)
    (files : List String) (loc nextRandLoc : Loc) :
    List String × Loc × Bool :=
  match o with
  | .success => (files, loc, true)
  | .connectionFailure => (files, loc, false)
  | .semanticFailure => (remove_exposures files, nextRandLoc, false)

/-! ## The sampling/retry run loop (C3, C4)

An executable model of the `for img_count ... while True` loop of
`gen_img_set`, driven by an oracle giving each location's attempt outcome
and by the stream of locations the random sampler would produce.  Fuel
bounds the unbounded retry loop; the run returns the committed `prev_locs`
and the trace of locations actually queried, in order. -/

/-- One run of the acquisition loop.  `cur` is the location currently held
by the loop body, `samples` the remaining outputs of the random sampler,
`remaining` the number of images still to produce. -/
def runLoop (oracle : Loc → AttemptOutcome) :
    Nat → List Loc → Loc → List Loc → List Loc → Nat → List Loc × List Loc
  | 0, _, _, prevLocs, trace, _ => (prevLocs, trace)
  | _ + 1, _, _, prevLocs, trace, 0 => (prevLocs, trace)
  | fuel + 1, samples, cur, prevLocs, trace, remaining + 1 =>
    if cur ∈ prevLocs then
      match samples with
      | [] => (prevLocs, trace)
      | s :: rest => runLoop oracle fuel rest s prevLocs trace (remaining + 1)
    else
      match oracle cur with
      | .success =>
        if remaining = 0 then (prevLocs ++ [cur], trace ++ [cur])
        else
          match samples with
          | [] => (prevLocs ++ [cur], trace ++ [cur])
          | s :: rest =>
            runLoop oracle fuel rest s (prevLocs ++ [cur]) (trace ++ [cur])
              remaining
      | .connectionFailure =>
        runLoop oracle fuel samples cur prevLocs (trace ++ [cur])
          (remaining + 1)
      | .semanticFailure =>
        match samples with
        | [] => (prevLocs, trace ++ [cur])
        | s :: rest =>
          runLoop oracle fuel rest s prevLocs (trace ++ [cur]) (remaining + 1)

/-! ## The random location sampler (C4)

`gen_rand_loc` rounds `np.random.uniform(0, 360)` and
`np.rad2deg(np.arcsin(np.random.uniform(-1, 1)))` to three decimals.
Python/NumPy `round` rounds half to even. -/

/-- Round to the nearest integer, halves to even (Python's `round`). -/
def roundHalfEven {α : Type} [LinearOrderedField α] [FloorRing α]
    (x : α) : ℤ :=
  if x - Int.floor x < 1 / 2 then Int.floor x
  else if x - Int.floor x > 1 / 2 then Int.floor x + 1
  else if Even (Int.floor x) then Int.floor x else Int.floor x + 1

/-- Round to three decimal places (`round(x, 3)`). -/
def round3 {α : Type} [LinearOrderedField α] [FloorRing α] (x : α) : α :=
  (roundHalfEven (x * 1000) : α) / 1000

/-- Model of `gen_rand_loc` as a function of the two underlying uniform
draws `u ~ Uniform(0, 360)` and `v ~ Uniform(-1, 1)`:
`(round(u, 3), round(rad2deg(arcsin(v)), 3))`. -/
noncomputable def gen_rand_loc (u v : ℝ) : ℝ × ℝ :=
  (round3 u, round3 (Real.arcsin v * (180 / Real.pi)))

/-! ## The rotation-angle estimate (C5)

`__straighten_img` computes `theta = math.tan((r0 - t0) / (r1 - t1))` and
then `int(theta * 180 / pi)`; Python's `int` truncates toward zero. -/

/-- Truncation toward zero (Python's `int` on a float). -/
noncomputable def truncInt (x : ℝ) : ℤ :=
  if 0 ≤ x then Int.floor x else - Int.floor (-x)

/-- Model of the angle computation of `__straighten_img` (generate_images.py
lines 320-323), from the top and right corners' (row, col) indices: the
source applies `math.tan` to the slope and converts the result as if it
were an angle in radians. -/
noncomputable def straighten_theta (top rightC : ℤ × ℤ) : ℤ :=
  truncInt (Real.tan (((rightC.1 - top.1 : ℤ) : ℝ) /
    ((rightC.2 - top.2 : ℤ) : ℝ)) * 180 / Real.pi)

/-- Modelled from the spec: the intended angle estimate, the arctangent of
the slope between the top and right corners converted to degrees
(an atan2-style slope-to-angle conversion), truncated as the source
truncates. -/
noncomputable def straighten_theta_spec (top rightC : ℤ × ℤ) : ℤ :=
  truncInt (Real.arctan (((rightC.1 - top.1 : ℤ) : ℝ) /
    ((rightC.2 - top.2 : ℤ) : ℝ)) * 180 / Real.pi)

/-! ## Histogram equalization (C6)

`__enhance_contrast` iterates `for pix in img_matrix` over the rows of the
2-D buffer and performs `img_hist[pix] += 1` with the row as a fancy index:
NumPy applies the increment once per distinct value occurring in the row.
The cumulative sum is rescaled by
`(cum_sum - cum_sum.min()) * 255 / (cum_sum.max() - cum_sum.min())`,
truncated to integer, and used as a per-intensity lookup table. -/

/-- The histogram built by the row-wise fancy-indexed increments: bin `v`
counts the rows in which intensity `v` occurs at least once. -/
def hist (m : List (List Nat)) (v : Nat) : Nat :=
  (m.filter (fun row => decide (v ∈ row))).length

/-- Entry `i` of `np.cumsum(img_hist)`. -/
def cdf (m : List (List Nat)) (i : Nat) : Nat :=
  ∑ v ∈ Finset.range (i + 1), hist m v

/-- The cumulative-sum array over the 256 bins. -/
def cdfList (m : List (List Nat)) : List Nat :=
  (List.range 256).map (cdf m)

/-- `np.min` of a nonempty array. -/
def arrMin : List Nat → Nat
  | [] => 0
  | x :: xs => xs.foldl Nat.min x

/-- `np.max` of a nonempty array. -/
def arrMax : List Nat → Nat
  | [] => 0
  | x :: xs => xs.foldl Nat.max x

/-- Entry `p` of the lookup table `uniform_norm`: the rescaled, truncated
cumulative sum (exact division followed by truncation). -/
def lut (m : List (List Nat)) (p : Nat) : Nat :=
  (cdf m p - arrMin (cdfList m)) * 255 /
    (arrMax (cdfList m) - arrMin (cdfList m))

/-- Model of `__enhance_contrast` (generate_images.py lines 92-112,
astro_img_handling.py lines 201-227): remap every pixel through the lookup
table and reshape to the original dimensions. -/
def enhance_contrast (m : List (List Nat)) : List (List Nat) :=
  m.map (fun row => row.map (lut m))

/-! ## Concrete instances used by counterexamples and witnesses -/

/-- A query result with three groups of sizes 3, 5 and 5, in archive order. -/
def rows355 : List QueryRow :=
  [((1, 1), "a1"), ((1, 1), "a2"), ((1, 1), "a3"),
   ((2, 2), "b1"), ((2, 2), "b2"), ((2, 2), "b3"), ((2, 2), "b4"), ((2, 2), "b5"),
   ((3, 3), "c1"), ((3, 3), "c2"), ((3, 3), "c3"), ((3, 3), "c4"), ((3, 3), "c5")]

/-- An outcome oracle whose only semantically-failing location is (1, 2). -/
def oracleC3 : Loc → AttemptOutcome :=
  fun l => if l = ((1, 2) : Loc) then .semanticFailure else .success

/-- A 3x4 image whose only non-white pixel sits at row 1, column 2. -/
def onePixelImg : Nat → Nat → Nat :=
  fun r c => if r = 1 && c = 2 then 0 else 255

/-! # Lemmas about the column scans -/

theorem scanFirst_some_sat {p : Nat → Bool} :
    ∀ {l : List Nat} {a : Nat}, scanFirst p l = some a →
      ∃ x, l[a]? = some x ∧ p x = true := by
  intro l
  induction l with
  | nil => intro a h; simp [scanFirst] at h
  | cons v rest ih =>
    intro a h
    by_cases hv : p v = true
    · simp [scanFirst, hv] at h
      subst h
      exact ⟨v, by simp, hv⟩
    · simp [scanFirst, hv] at h
      obtain ⟨a1, ha1, rfl⟩ := h
      obtain ⟨x, hx, hpx⟩ := ih ha1
      exact ⟨x, by simpa using hx, hpx⟩

theorem scanFirst_min {p : Nat → Bool} :
    ∀ {l : List Nat} {i x : Nat}, l[i]? = some x → p x = true →
      ∃ a, scanFirst p l = some a ∧ a ≤ i := by
  intro l
  induction l with
  | nil => intro i x h _; simp at h
  | cons v rest ih =>
    intro i x hget hpx
    by_cases hv : p v = true
    · exact ⟨0, by simp [scanFirst, hv], Nat.zero_le i⟩
    · cases i with
      | zero =>
        simp at hget
        subst hget
        exact absurd hpx hv
      | succ i1 =>
        simp at hget
        obtain ⟨a1, ha1, hle⟩ := ih hget hpx
        exact ⟨a1 + 1, by simp [scanFirst, hv, ha1], Nat.succ_le_succ hle⟩

theorem scanLast_some_sat {p : Nat → Bool} :
    ∀ {l : List Nat} {b : Nat}, scanLast p l = some b →
      ∃ y, l[b]? = some y ∧ p y = true := by
  intro l
  induction l with
  | nil => intro b h; simp [scanLast] at h
  | cons v rest ih =>
    intro b h
    cases hrest : scanLast p rest with
    | some k =>
      simp [scanLast, hrest] at h
      subst h
      obtain ⟨y, hy, hpy⟩ := ih hrest
      exact ⟨y, by simpa using hy, hpy⟩
    | none =>
      by_cases hv : p v = true
      · simp [scanLast, hrest, hv] at h
        subst h
        exact ⟨v, by simp, hv⟩
      · simp [scanLast, hrest, hv] at h

theorem scanLast_max {p : Nat → Bool} :
    ∀ {l : List Nat} {i x : Nat}, l[i]? = some x → p x = true →
      ∃ b, scanLast p l = some b ∧ i ≤ b := by
  intro l
  induction l with
  | nil => intro i x h _; simp at h
  | cons v rest ih =>
    intro i x hget hpx
    cases i with
    | zero =>
      simp at hget
      subst hget
      cases hrest : scanLast p rest with
      | some k => exact ⟨k + 1, by simp [scanLast, hrest], Nat.zero_le _⟩
      | none => exact ⟨0, by simp [scanLast, hrest, hpx], Nat.le_refl 0⟩
    | succ i1 =>
      simp at hget
      obtain ⟨b1, hb1, hle⟩ := ih hget hpx
      exact ⟨b1 + 1, by simp [scanLast, hb1], Nat.succ_le_succ hle⟩

/-! # Lemmas about first-match scans over index lists -/

theorem find?_eq_some_of_unique {α : Type} (q : α → Bool) :
    ∀ (l : List α) (x : α), x ∈ l → q x = true →
      (∀ y ∈ l, q y = true → y = x) → l.find? q = some x := by
  intro l
  induction l with
  | nil => intro x hx; cases hx
  | cons a as ih =>
    intro x hx hqx huniq
    by_cases hqa : q a = true
    · have hax : a = x := huniq a (List.mem_cons_self a as) hqa
      subst hax
      simp [List.find?_cons_of_pos _ hqa]
    · rw [List.find?_cons_of_neg _ hqa]
      have hxas : x ∈ as := by
        cases List.mem_cons.mp hx with
        | inl h => exact absurd (h ▸ hqx) hqa
        | inr h => exact h
      exact ih x hxas hqx fun y hy hqy => huniq y (List.mem_cons_of_mem a hy) hqy

theorem mem_gridRowMajor {numRows numCols : Nat} (rc : Nat × Nat) :
    rc ∈ gridRowMajor numRows numCols ↔ rc.1 < numRows ∧ rc.2 < numCols := by
  obtain ⟨r, c⟩ := rc
  simp only [gridRowMajor, List.mem_flatMap, List.mem_map, List.mem_range]
  constructor
  · rintro ⟨a, ha, b, hb, h⟩
    cases h
    exact ⟨ha, hb⟩
  · rintro ⟨h1, h2⟩
    exact ⟨r, h1, c, h2, rfl⟩

theorem mem_gridRowMajorRev {numRows numCols : Nat} (rc : Nat × Nat) :
    rc ∈ gridRowMajorRev numRows numCols ↔ rc.1 < numRows ∧ rc.2 < numCols := by
  obtain ⟨r, c⟩ := rc
  simp only [gridRowMajorRev, List.mem_flatMap, List.mem_reverse, List.mem_map,
    List.mem_range]
  constructor
  · rintro ⟨a, ha, b, hb, h⟩
    cases h
    exact ⟨ha, hb⟩
  · rintro ⟨h1, h2⟩
    exact ⟨r, h1, c, h2, rfl⟩

theorem mem_gridColMajor {numRows numCols : Nat} (rc : Nat × Nat) :
    rc ∈ gridColMajor numRows numCols ↔ rc.1 < numRows ∧ rc.2 < numCols := by
  obtain ⟨r, c⟩ := rc
  simp only [gridColMajor, List.mem_flatMap, List.mem_map, List.mem_range]
  constructor
  · rintro ⟨a, ha, b, hb, h⟩
    cases h
    exact ⟨hb, ha⟩
  · rintro ⟨h1, h2⟩
    exact ⟨c, h2, r, h1, rfl⟩

theorem mem_gridColMajorRev {numRows numCols : Nat} (rc : Nat × Nat) :
    rc ∈ gridColMajorRev numRows numCols ↔ rc.1 < numRows ∧ rc.2 < numCols := by
  obtain ⟨r, c⟩ := rc
  simp only [gridColMajorRev, List.mem_flatMap, List.mem_reverse, List.mem_map,
    List.mem_range]
  constructor
  · rintro ⟨a, ha, b, hb, h⟩
    cases h
    exact ⟨hb, ha⟩
  · rintro ⟨h1, h2⟩
    exact ⟨c, h2, r, h1, rfl⟩

theorem scanCorner_eq_some {gltb : Nat → Nat → Bool} {pixel_value : Nat}
    {image : Nat → Nat → Nat} {idxs : List (Nat × Nat)} {r c : Nat}
    (hmem : (r, c) ∈ idxs) (hq : gltb (image r c) pixel_value = true)
    (huniq : ∀ y ∈ idxs, gltb (image y.1 y.2) pixel_value = true → y = (r, c)) :
    scanCorner gltb pixel_value image idxs = some (r, c, image r c) := by
  unfold scanCorner
  rw [find?_eq_some_of_unique _ idxs (r, c) hmem hq huniq]

theorem scanCorner_cases (gltb : Nat → Nat → Bool) (pixel_value : Nat)
    (image : Nat → Nat → Nat) (idxs : List (Nat × Nat)) :
    (scanCorner gltb pixel_value image idxs = none ↔
      ∀ rc ∈ idxs, gltb (image rc.1 rc.2) pixel_value = false) ∧
    ((scanCorner gltb pixel_value image idxs).isSome ↔
      ∃ rc ∈ idxs, gltb (image rc.1 rc.2) pixel_value = true) := by
  unfold scanCorner
  cases hfind : idxs.find? (fun rc => gltb (image rc.1 rc.2) pixel_value) with
  | none =>
    rw [List.find?_eq_none] at hfind
    refine ⟨⟨fun _ rc hrc => ?_, fun _ => rfl⟩, ⟨fun h => ?_, ?_⟩⟩
    · simpa using hfind rc hrc
    · simp at h
    · rintro ⟨rc, hrc, hq⟩
      exact absurd hq (by simpa using hfind rc hrc)
  | some rc =>
    have hq : gltb (image rc.1 rc.2) pixel_value = true := by
      simpa using List.find?_some hfind
    have hmem := List.mem_of_find?_eq_some hfind
    refine ⟨⟨fun h => Option.noConfusion h, fun hall => ?_⟩,
      ⟨fun _ => ⟨rc, hmem, hq⟩, fun _ => rfl⟩⟩
    · rw [hall rc hmem] at hq
      exact Bool.noConfusion hq

/-! # Claim C7 -/

/-- C7: for every grayscale image, the zoom check returns true if and only
if column 0 contains non-background (below-white) pixels at two distinct
rows; in particular it is false when the first column is all background and
when the two scans of column 0 hit the same single row. -/
theorem claim_C7_is_zoomed_in_iff (img : List (List Nat)) :
    is_zoomed_in img = true ↔
      ∃ i j : Nat, i ≠ j ∧ (∃ x, (column0 img)[i]? = some x ∧ x < 255) ∧
        (∃ y, (column0 img)[j]? = some y ∧ y < 255) := by
  simp only [is_zoomed_in]
  constructor
  · intro h
    simp only [Bool.and_eq_true, decide_eq_true_eq,
      Option.isSome_iff_exists] at h
    obtain ⟨⟨hne, a, ha⟩, b, hb⟩ := h
    obtain ⟨x, hx, hpx⟩ := scanFirst_some_sat ha
    obtain ⟨y, hy, hpy⟩ := scanLast_some_sat hb
    refine ⟨a, b, ?_, ⟨x, hx, by simpa using hpx⟩, ⟨y, hy, by simpa using hpy⟩⟩
    intro hab
    rw [ha, hb, hab] at hne
    exact hne rfl
  · rintro ⟨i, j, hij, ⟨x, hx, hxlt⟩, ⟨y, hy, hylt⟩⟩
    obtain ⟨a, ha, hai⟩ := @scanFirst_min (fun v => decide (v < 255)) _ _ _
      hx (by simpa using hxlt)
    obtain ⟨a2, ha2, haj⟩ := @scanFirst_min (fun v => decide (v < 255)) _ _ _
      hy (by simpa using hylt)
    obtain ⟨b, hb, hib⟩ := @scanLast_max (fun v => decide (v < 255)) _ _ _
      hx (by simpa using hxlt)
    obtain ⟨b2, hb2, hjb⟩ := @scanLast_max (fun v => decide (v < 255)) _ _ _
      hy (by simpa using hylt)
    rw [ha] at ha2
    rw [hb] at hb2
    obtain rfl : a = a2 := Option.some.inj ha2
    obtain rfl : b = b2 := Option.some.inj hb2
    simp only [Bool.and_eq_true, decide_eq_true_eq, Option.isSome_iff_exists]
    refine ⟨⟨?_, a, ha⟩, b, hb⟩
    rw [ha, hb]
    intro hcon
    have hab := Option.some.inj hcon
    omega

/-! # Claim C8 -/

/-- C8: findCorners performs four independent early-exit scans (top edge
row-major, bottom edge reverse-row-major, left edge column-major, right
edge reverse-column-major), each returning the first pixel satisfying the
predicate; hence on an image whose unique satisfying pixel sits at (r, c),
all four corners equal (r, c) with its pixel value. -/
theorem claim_C8_find_corners_single_pixel
    (image : Nat → Nat → Nat) (numRows numCols : Nat)
    (gltb : Nat → Nat → Bool) (pixel_value r c : Nat)
    (hr : r < numRows) (hc : c < numCols)
    (hsat : gltb (image r c) pixel_value = true)
    (huniq : ∀ r2 < numRows, ∀ c2 < numCols,
      gltb (image r2 c2) pixel_value = true → r2 = r ∧ c2 = c) :
    find_corners image numRows numCols gltb pixel_value =
      (some (r, c, image r c), some (r, c, image r c),
        some (r, c, image r c), some (r, c, image r c)) := by
  have key : ∀ idxs : List (Nat × Nat),
      (∀ rc : Nat × Nat, rc ∈ idxs ↔ rc.1 < numRows ∧ rc.2 < numCols) →
      scanCorner gltb pixel_value image idxs = some (r, c, image r c) := by
    intro idxs hchar
    refine scanCorner_eq_some ((hchar (r, c)).mpr ⟨hr, hc⟩) hsat ?_
    intro y hy hqy
    obtain ⟨hy1, hy2⟩ := (hchar y).mp hy
    obtain ⟨e1, e2⟩ := huniq y.1 hy1 y.2 hy2 hqy
    exact Prod.ext e1 e2
  unfold find_corners
  rw [key _ mem_gridRowMajor, key _ mem_gridRowMajorRev,
    key _ mem_gridColMajor, key _ mem_gridColMajorRev]

/-- Witness for C8: a 3x4 image whose single below-white pixel sits at
row 1, column 2 yields that point as all four corners. -/
theorem claim_C8_witness :
    find_corners onePixelImg 3 4 (fun x pv => decide (x < pv)) 255 =
      (some (1, 2, onePixelImg 1 2), some (1, 2, onePixelImg 1 2),
        some (1, 2, onePixelImg 1 2), some (1, 2, onePixelImg 1 2)) :=
  claim_C8_find_corners_single_pixel onePixelImg 3 4 _ 255 1 2
    (by decide) (by decide) (by decide) (by decide)

/-! # Claim C10 -/

/-- C10: the four corner results of findCorners are all assigned exactly
when some pixel of the image satisfies the predicate; on an image with no
satisfying pixel every scan falls through unassigned (the error branch,
modelled by `none`). -/
theorem claim_C10_find_corners_requires_match
    (image : Nat → Nat → Nat) (numRows numCols : Nat)
    (gltb : Nat → Nat → Bool) (pixel_value : Nat) :
    ((∃ r c, r < numRows ∧ c < numCols ∧
        gltb (image r c) pixel_value = true) ↔
      ((find_corners image numRows numCols gltb pixel_value).1.isSome ∧
        (find_corners image numRows numCols gltb pixel_value).2.1.isSome ∧
        (find_corners image numRows numCols gltb pixel_value).2.2.1.isSome ∧
        (find_corners image numRows numCols gltb pixel_value).2.2.2.isSome)) ∧
    ((¬ ∃ r c, r < numRows ∧ c < numCols ∧
        gltb (image r c) pixel_value = true) ↔
      ((find_corners image numRows numCols gltb pixel_value).1 = none ∧
        (find_corners image numRows numCols gltb pixel_value).2.1 = none ∧
        (find_corners image numRows numCols gltb pixel_value).2.2.1 = none ∧
        (find_corners image numRows numCols gltb pixel_value).2.2.2 = none)) := by
  have key : ∀ idxs : List (Nat × Nat),
      (∀ rc : Nat × Nat, rc ∈ idxs ↔ rc.1 < numRows ∧ rc.2 < numCols) →
      ((scanCorner gltb pixel_value image idxs).isSome ↔
        (∃ r c, r < numRows ∧ c < numCols ∧
          gltb (image r c) pixel_value = true)) ∧
      (scanCorner gltb pixel_value image idxs = none ↔
        ¬ (∃ r c, r < numRows ∧ c < numCols ∧
          gltb (image r c) pixel_value = true)) := by
    intro idxs hchar
    obtain ⟨hnone, hsome⟩ := scanCorner_cases gltb pixel_value image idxs
    constructor
    · rw [hsome]
      constructor
      · rintro ⟨rc, hrc, hq⟩
        exact ⟨rc.1, rc.2, ((hchar rc).mp hrc).1, ((hchar rc).mp hrc).2, hq⟩
      · rintro ⟨r, c, hr, hc, hq⟩
        exact ⟨(r, c), (hchar (r, c)).mpr ⟨hr, hc⟩, hq⟩
    · rw [hnone]
      constructor
      · intro hall
        rintro ⟨r, c, hr, hc, hq⟩
        have := hall (r, c) ((hchar (r, c)).mpr ⟨hr, hc⟩)
        rw [hq] at this
        exact Bool.noConfusion this
      · intro hnex rc hrc
        by_contra hne
        have hq : gltb (image rc.1 rc.2) pixel_value = true := by
          cases hgl : gltb (image rc.1 rc.2) pixel_value
          · exact absurd hgl hne
          · rfl
        exact hnex
          ⟨rc.1, rc.2, ((hchar rc).mp hrc).1, ((hchar rc).mp hrc).2, hq⟩
  obtain ⟨h1s, h1n⟩ := key _ mem_gridRowMajor
  obtain ⟨h2s, h2n⟩ := key _ mem_gridRowMajorRev
  obtain ⟨h3s, h3n⟩ := key _ mem_gridColMajor
  obtain ⟨h4s, h4n⟩ := key _ mem_gridColMajorRev
  constructor
  · constructor
    · intro hex
      exact ⟨h1s.mpr hex, h2s.mpr hex, h3s.mpr hex, h4s.mpr hex⟩
    · rintro ⟨h, _, _, _⟩
      exact h1s.mp h
  · constructor
    · intro hnex
      exact ⟨h1n.mpr hnex, h2n.mpr hnex, h3n.mpr hnex, h4n.mpr hnex⟩
    · rintro ⟨h, _, _, _⟩
      exact h1n.mp h

/-! # Lemmas about argmax and grouping -/

theorem argmax_cons (x : Nat) (xs : List Nat) :
    argmax (x :: xs) = if xs.getD (argmax xs) 0 > x then argmax xs + 1 else 0 :=
  rfl

theorem argmax_spec : ∀ l : List Nat, l ≠ [] →
    argmax l < l.length ∧
    (∀ j, j < l.length → l.getD j 0 ≤ l.getD (argmax l) 0) ∧
    (∀ j, j < argmax l → l.getD j 0 < l.getD (argmax l) 0) := by
  intro l
  induction l with
  | nil => intro h; exact absurd rfl h
  | cons x xs ih =>
    intro _
    by_cases hxs : xs = []
    · subst hxs
      refine ⟨by simp [argmax], ?_, ?_⟩
      · intro j hj
        have hj0 : j = 0 := by simpa using hj
        subst hj0
        have hax : argmax [x] = 0 := by simp [argmax]
        rw [hax]
      · intro j hj
        have : argmax [x] = 0 := by simp [argmax]
        omega
    · obtain ⟨h1, h2, h3⟩ := ih hxs
      rw [argmax_cons]
      by_cases hgt : xs.getD (argmax xs) 0 > x
      · rw [if_pos hgt]
        refine ⟨by simpa using Nat.succ_lt_succ h1, ?_, ?_⟩
        · intro j hj
          cases j with
          | zero =>
            simpa using Nat.le_of_lt hgt
          | succ j1 =>
            have hj1 : j1 < xs.length := by simp at hj; omega
            simpa using h2 j1 hj1
        · intro j hj
          cases j with
          | zero => simpa using hgt
          | succ j1 =>
            have hj1 : j1 < argmax xs := by omega
            simpa using h3 j1 hj1
      · rw [if_neg hgt]
        refine ⟨Nat.zero_lt_succ _, ?_, ?_⟩
        · intro j hj
          cases j with
          | zero => simp
          | succ j1 =>
            have hj1 : j1 < xs.length := by simp at hj; omega
            have := h2 j1 hj1
            simp only [List.getD_cons_succ, List.getD_cons_zero]
            omega
        · intro j hj
          omega

theorem groupStep_length (acc : List (Loc × List String)) (row : QueryRow) :
    acc.length ≤ (groupStep acc row).length := by
  unfold groupStep
  split
  · simp
  · simp

theorem foldl_length_le {α β : Type} (step : List α → β → List α)
    (hstep : ∀ acc x, acc.length ≤ (step acc x).length) :
    ∀ (rows : List β) (acc : List α),
      acc.length ≤ (List.foldl step acc rows).length := by
  intro rows
  induction rows with
  | nil => intro acc; simp
  | cons r rest ih =>
    intro acc
    exact le_trans (hstep acc r) (ih (step acc r))

theorem groupByLoc_ne_nil (rows : List QueryRow) (h : rows ≠ []) :
    groupByLoc rows ≠ [] := by
  cases rows with
  | nil => exact absurd rfl h
  | cons r rest =>
    have hlen : (groupStep [] r).length ≤ (groupByLoc (r :: rest)).length := by
      unfold groupByLoc
      rw [List.foldl_cons]
      exact foldl_length_le groupStep groupStep_length rest (groupStep [] r)
    have h1 : (groupStep [] r).length = 1 := by simp [groupStep]
    intro hcon
    rw [hcon] at hlen
    simp [h1] at hlen

/-! # Claim C1 -/

/-- C1: for every nonempty grouped query result, the manual fetch path
selects the group at the first index attaining the maximal URL-list length
(ties resolve to the earliest group in archive order), and
NotEnoughExposures is raised iff the selected group's size is below
MIN_NUM_EXPOSURES; on group sizes 3, 5, 5 the first size-5 group
(index 1) is selected. -/
theorem claim_C1_group_selection :
    (∀ rows : List QueryRow, rows ≠ [] →
      (∀ j, j < ((groupByLoc rows).map (fun g => g.2.length)).length →
        ((groupByLoc rows).map (fun g => g.2.length)).getD j 0 ≤
          ((groupByLoc rows).map (fun g => g.2.length)).getD
            (argmax ((groupByLoc rows).map (fun g => g.2.length))) 0) ∧
      (∀ j, j < argmax ((groupByLoc rows).map (fun g => g.2.length)) →
        ((groupByLoc rows).map (fun g => g.2.length)).getD j 0 <
          ((groupByLoc rows).map (fun g => g.2.length)).getD
            (argmax ((groupByLoc rows).map (fun g => g.2.length))) 0) ∧
      (fetch_img_manual (.ok rows) = .raiseNotEnoughExposures ↔
        ((groupByLoc rows).map (fun g => g.2.length)).getD
          (argmax ((groupByLoc rows).map (fun g => g.2.length))) 0 <
          MIN_NUM_EXPOSURES)) ∧
    (groupByLoc rows355).map (fun g => g.2.length) = [3, 5, 5] ∧
    argmax ((groupByLoc rows355).map (fun g => g.2.length)) = 1 ∧
    fetch_img_manual (.ok rows355) =
      .download (2, 2) ["b1", "b2", "b3", "b4", "b5"] := by
  constructor
  · intro rows hrows
    have hgne : groupByLoc rows ≠ [] := groupByLoc_ne_nil rows hrows
    have hsne : (groupByLoc rows).map (fun g => g.2.length) ≠ [] := by
      simpa using hgne
    obtain ⟨h1, h2, h3⟩ := argmax_spec _ hsne
    refine ⟨h2, h3, ?_⟩
    have hlen0 : ¬ rows.length = 0 := by
      simpa [List.length_eq_zero] using hrows
    have hi : argmax ((groupByLoc rows).map (fun g => g.2.length)) <
        (groupByLoc rows).length := by simpa using h1
    obtain ⟨grp, hgrp⟩ : ∃ grp,
        (groupByLoc rows)[argmax
          ((groupByLoc rows).map (fun g => g.2.length))]? = some grp :=
      ⟨_, List.getElem?_eq_getElem hi⟩
    have hurls : ((groupByLoc rows).map (fun g => g.2)).getD
        (argmax ((groupByLoc rows).map (fun g => g.2.length))) [] = grp.2 := by
      rw [List.getD_eq_getElem?_getD, List.getElem?_map, hgrp]
      rfl
    have hsizes : ((groupByLoc rows).map (fun g => g.2.length)).getD
        (argmax ((groupByLoc rows).map (fun g => g.2.length))) 0 =
          grp.2.length := by
      rw [List.getD_eq_getElem?_getD, List.getElem?_map, hgrp]
      rfl
    simp only [fetch_img_manual]
    rw [if_neg hlen0, hurls, hsizes]
    by_cases hlt : grp.2.length < MIN_NUM_EXPOSURES
    · simp [hlt]
    · simp [hlt]
  · refine ⟨by decide, by decide, by decide⟩

/-- Witness for C1 at the 3, 5, 5 query result: NotEnoughExposures is not
raised exactly because the selected (first size-5) group holds at least
MIN_NUM_EXPOSURES URLs. -/
theorem claim_C1_witness :
    fetch_img_manual (.ok rows355) = .raiseNotEnoughExposures ↔
      ((groupByLoc rows355).map (fun g => g.2.length)).getD
        (argmax ((groupByLoc rows355).map (fun g => g.2.length))) 0 <
        MIN_NUM_EXPOSURES :=
  (claim_C1_group_selection.1 rows355 (by decide)).2.2

/-! # Claim C9 -/

/-- C9: a ValueError from the archive query (malformed query parameters)
is only logged by the fetch operation's try/except: the block completes
normally with the query-result variable unassigned — so the next use of
it is a NameError crash — instead of raising a classified failure that
aborts the current attempt. -/
theorem claim_C9_valueerror_falls_through :
    fetch_img_after_try .valueError =
      .ok ⟨none, ["ERROR: Invalid query options"]⟩ ∧
    read_img_table ⟨none, ["ERROR: Invalid query options"]⟩ = none ∧
    fetch_img_manual .valueError = .crashNameError :=
  ⟨rfl, rfl, rfl⟩

/-! # Unfolding lemmas for the acquisition run loop -/

theorem runLoop_guard_nil (o : Loc → AttemptOutcome) (fuel : Nat) (cur : Loc)
    (prev trace : List Loc) (rem : Nat) (hcur : cur ∈ prev) :
    runLoop o (fuel + 1) [] cur prev trace (rem + 1) = (prev, trace) := by
  simp only [runLoop]
  rw [if_pos hcur]

theorem runLoop_guard_cons (o : Loc → AttemptOutcome) (fuel : Nat)
    (s : Loc) (rest : List Loc) (cur : Loc) (prev trace : List Loc)
    (rem : Nat) (hcur : cur ∈ prev) :
    runLoop o (fuel + 1) (s :: rest) cur prev trace (rem + 1) =
      runLoop o fuel rest s prev trace (rem + 1) := by
  simp only [runLoop]
  rw [if_pos hcur]

theorem runLoop_success_stop (o : Loc → AttemptOutcome) (fuel : Nat)
    (samples : List Loc) (cur : Loc) (prev trace : List Loc)
    (hcur : cur ∉ prev) (ho : o cur = .success) :
    runLoop o (fuel + 1) samples cur prev trace 1 =
      (prev ++ [cur], trace ++ [cur]) := by
  simp only [runLoop]
  rw [if_neg hcur, ho]
  simp

theorem runLoop_success_nil (o : Loc → AttemptOutcome) (fuel : Nat)
    (cur : Loc) (prev trace : List Loc) (rem : Nat)
    (hcur : cur ∉ prev) (ho : o cur = .success) :
    runLoop o (fuel + 1) [] cur prev trace (rem + 1) =
      (prev ++ [cur], trace ++ [cur]) := by
  by_cases hz : rem = 0
  · subst hz
    simp only [runLoop]
    rw [if_neg hcur, ho]
    simp
  · simp only [runLoop]
    rw [if_neg hcur, ho, if_neg hz]

theorem runLoop_success_cons (o : Loc → AttemptOutcome) (fuel : Nat)
    (s : Loc) (rest : List Loc) (cur : Loc) (prev trace : List Loc)
    (rem : Nat) (hcur : cur ∉ prev) (ho : o cur = .success) (hz : rem ≠ 0) :
    runLoop o (fuel + 1) (s :: rest) cur prev trace (rem + 1) =
      runLoop o fuel rest s (prev ++ [cur]) (trace ++ [cur]) rem := by
  simp only [runLoop]
  rw [if_neg hcur, ho, if_neg hz]

theorem runLoop_conn (o : Loc → AttemptOutcome) (fuel : Nat)
    (samples : List Loc) (cur : Loc) (prev trace : List Loc) (rem : Nat)
    (hcur : cur ∉ prev) (ho : o cur = .connectionFailure) :
    runLoop o (fuel + 1) samples cur prev trace (rem + 1) =
      runLoop o fuel samples cur prev (trace ++ [cur]) (rem + 1) := by
  simp only [runLoop]
  rw [if_neg hcur, ho]

theorem runLoop_sem_nil (o : Loc → AttemptOutcome) (fuel : Nat)
    (cur : Loc) (prev trace : List Loc) (rem : Nat)
    (hcur : cur ∉ prev) (ho : o cur = .semanticFailure) :
    runLoop o (fuel + 1) [] cur prev trace (rem + 1) =
      (prev, trace ++ [cur]) := by
  simp only [runLoop]
  rw [if_neg hcur, ho]

theorem runLoop_sem_cons (o : Loc → AttemptOutcome) (fuel : Nat)
    (s : Loc) (rest : List Loc) (cur : Loc) (prev trace : List Loc)
    (rem : Nat) (hcur : cur ∉ prev) (ho : o cur = .semanticFailure) :
    runLoop o (fuel + 1) (s :: rest) cur prev trace (rem + 1) =
      runLoop o fuel rest s prev (trace ++ [cur]) (rem + 1) := by
  simp only [runLoop]
  rw [if_neg hcur, ho]

/-- Only locations whose attempt fully succeeded are ever committed to the
visited list `prev_locs`. -/
theorem runLoop_commit_success (oracle : Loc → AttemptOutcome) :
    ∀ (fuel : Nat) (samples : List Loc) (cur : Loc) (prev trace : List Loc)
      (remaining : Nat) (l : Loc),
      l ∈ (runLoop oracle fuel samples cur prev trace remaining).1 →
      l ∈ prev ∨ oracle l = .success := by
  intro fuel
  induction fuel with
  | zero =>
    intro samples cur prev trace remaining l h
    simp only [runLoop] at h
    exact Or.inl h
  | succ fuel ih =>
    intro samples cur prev trace remaining l h
    cases remaining with
    | zero =>
      simp only [runLoop] at h
      exact Or.inl h
    | succ rem =>
      by_cases hcur : cur ∈ prev
      · cases samples with
        | nil =>
          rw [runLoop_guard_nil oracle fuel cur prev trace rem hcur] at h
          exact Or.inl h
        | cons s rest =>
          rw [runLoop_guard_cons oracle fuel s rest cur prev trace rem hcur]
            at h
          exact ih rest s prev trace (rem + 1) l h
      · cases ho : oracle cur with
        | success =>
          cases samples with
          | nil =>
            rw [runLoop_success_nil oracle fuel cur prev trace rem hcur ho] at h
            rcases List.mem_append.mp h with h3 | h3
            · exact Or.inl h3
            · right
              have hl : l = cur := by simpa using h3
              rw [hl, ho]
          | cons s rest =>
            by_cases hz : rem = 0
            · subst hz
              rw [runLoop_success_stop oracle fuel (s :: rest) cur prev trace
                hcur ho] at h
              rcases List.mem_append.mp h with h3 | h3
              · exact Or.inl h3
              · right
                have hl : l = cur := by simpa using h3
                rw [hl, ho]
            · rw [runLoop_success_cons oracle fuel s rest cur prev trace rem
                hcur ho hz] at h
              rcases ih rest s (prev ++ [cur]) (trace ++ [cur]) rem l h
                with h3 | h3
              · rcases List.mem_append.mp h3 with h4 | h4
                · exact Or.inl h4
                · right
                  have hl : l = cur := by simpa using h4
                  rw [hl, ho]
              · exact Or.inr h3
        | connectionFailure =>
          rw [runLoop_conn oracle fuel samples cur prev trace rem hcur ho] at h
          exact ih samples cur prev (trace ++ [cur]) (rem + 1) l h
        | semanticFailure =>
          cases samples with
          | nil =>
            rw [runLoop_sem_nil oracle fuel cur prev trace rem hcur ho] at h
            exact Or.inl h
          | cons s rest =>
            rw [runLoop_sem_cons oracle fuel s rest cur prev trace rem hcur ho]
              at h
            exact ih rest s prev (trace ++ [cur]) (rem + 1) l h

/-- The visited list stays duplicate-free along any run. -/
theorem runLoop_nodup (oracle : Loc → AttemptOutcome) :
    ∀ (fuel : Nat) (samples : List Loc) (cur : Loc) (prev trace : List Loc)
      (remaining : Nat), prev.Nodup →
      ((runLoop oracle fuel samples cur prev trace remaining).1).Nodup := by
  intro fuel
  induction fuel with
  | zero =>
    intro samples cur prev trace remaining h
    simpa only [runLoop] using h
  | succ fuel ih =>
    intro samples cur prev trace remaining h
    cases remaining with
    | zero => simpa only [runLoop] using h
    | succ rem =>
      by_cases hcur : cur ∈ prev
      · cases samples with
        | nil =>
          rw [runLoop_guard_nil oracle fuel cur prev trace rem hcur]
          exact h
        | cons s rest =>
          rw [runLoop_guard_cons oracle fuel s rest cur prev trace rem hcur]
          exact ih rest s prev trace (rem + 1) h
      · have happ : (prev ++ [cur]).Nodup := by
          rw [List.nodup_append]
          refine ⟨h, List.nodup_singleton cur, ?_⟩
          intro a ha hac
          have : a = cur := by simpa using hac
          exact hcur (this ▸ ha)
        cases ho : oracle cur with
        | success =>
          cases samples with
          | nil =>
            rw [runLoop_success_nil oracle fuel cur prev trace rem hcur ho]
            exact happ
          | cons s rest =>
            by_cases hz : rem = 0
            · subst hz
              rw [runLoop_success_stop oracle fuel (s :: rest) cur prev trace
                hcur ho]
              exact happ
            · rw [runLoop_success_cons oracle fuel s rest cur prev trace rem
                hcur ho hz]
              exact ih rest s (prev ++ [cur]) (trace ++ [cur]) rem happ
        | connectionFailure =>
          rw [runLoop_conn oracle fuel samples cur prev trace rem hcur ho]
          exact ih samples cur prev (trace ++ [cur]) (rem + 1) h
        | semanticFailure =>
          cases samples with
          | nil =>
            rw [runLoop_sem_nil oracle fuel cur prev trace rem hcur ho]
            exact h
          | cons s rest =>
            rw [runLoop_sem_cons oracle fuel s rest cur prev trace rem hcur ho]
            exact ih rest s prev (trace ++ [cur]) (rem + 1) h

/-! # Claim C2 -/

/-- C2 counterexample: in the module-level controller
(astro_img_handling.py), a connection failure retries the same location
while the exposure scratch file survives into the retry, so the claimed
unconditional cleanup before retry is false on this code. -/
theorem claim_C2_counterexample :
    isExposureScratch "exposure_1.jpeg" = true ∧
    step_astro_img_handling .connectionFailure ["exposure_1.jpeg"] (1, 1)
      (2, 2) = (["exposure_1.jpeg"], (1, 1), false) :=
  ⟨by decide, rfl⟩

/-- C2 amended: on a connection failure, the class-based controller
(generate_images.py, with manual processing) deletes every exposure
scratch file and retries the same location; the module-level controller
(astro_img_handling.py) also retries the same location but leaves the file
state untouched. -/
theorem claim_C2_connection_cleanup_amended :
    (∀ (files : List String) (loc nextRandLoc : Loc),
      (step_generate_images .connectionFailure true files loc
        nextRandLoc).2.1 = loc ∧
      (∀ f ∈ (step_generate_images .connectionFailure true files loc
        nextRandLoc).1, isExposureScratch f = false)) ∧
    (∀ (files : List String) (loc nextRandLoc : Loc),
      step_astro_img_handling .connectionFailure files loc nextRandLoc =
        (files, loc, false)) := by
  constructor
  · intro files loc nextRandLoc
    refine ⟨rfl, ?_⟩
    intro f hf
    have h2 := (List.mem_filter.mp hf).2
    simpa using h2
  · intro files loc nextRandLoc
    rfl

/-- Witness for the amended C2 at a one-file state. -/
theorem claim_C2_witness :
    (step_generate_images .connectionFailure true ["exposure_1.jpeg"] (1, 1)
      (2, 2)).2.1 = (1, 1) ∧
    step_astro_img_handling .connectionFailure ["exposure_2.jpeg"] (3, 3)
      (4, 4) = (["exposure_2.jpeg"], (3, 3), false) :=
  ⟨(claim_C2_connection_cleanup_amended.1 ["exposure_1.jpeg"] (1, 1)
      (2, 2)).1,
   claim_C2_connection_cleanup_amended.2 ["exposure_2.jpeg"] (3, 3) (4, 4)⟩

/-! # Claim C3 -/

/-- C3 counterexample: location (1, 2) fails semantically, the controller
resamples, and yet (1, 2) is queried a second time later in the same run
(the sampler redraws it and it was never recorded in the visited list), so
the claimed "never queried again within the same run" is false. -/
theorem claim_C3_counterexample :
    oracleC3 (1, 2) = .semanticFailure ∧
    (runLoop oracleC3 10 [(3, 4), (1, 2)] (1, 2) [] [] 2).2 =
      [(1, 2), (3, 4), (1, 2)] ∧
    List.count ((1, 2) : Loc)
      (runLoop oracleC3 10 [(3, 4), (1, 2)] (1, 2) [] [] 2).2 = 2 :=
  ⟨by decide, by decide, by decide⟩

/-- C3 amended: after a semantic failure the controller immediately
abandons the current coordinate (the next query uses the next sampler
output), both controllers' semantic-failure handlers leave no exposure
scratch file and hand the freshly sampled location to the next query, and
a failed coordinate is never committed to the visited list — but nothing
prevents the sampler from redrawing it later in the same run. -/
theorem claim_C3_semantic_failure_amended :
    (∀ (oracle : Loc → AttemptOutcome) (fuel : Nat) (s : Loc)
        (rest : List Loc) (cur : Loc) (prev trace : List Loc) (rem : Nat),
      cur ∉ prev → oracle cur = .semanticFailure →
      runLoop oracle (fuel + 1) (s :: rest) cur prev trace (rem + 1) =
        runLoop oracle fuel rest s prev (trace ++ [cur]) (rem + 1)) ∧
    (∀ (oracle : Loc → AttemptOutcome) (fuel : Nat) (samples : List Loc)
        (cur : Loc) (prev trace : List Loc) (remaining : Nat) (l : Loc),
      l ∈ (runLoop oracle fuel samples cur prev trace remaining).1 →
      l ∈ prev ∨ oracle l = .success) ∧
    (∀ (files : List String) (loc nextRandLoc : Loc),
      (∀ f ∈ (step_astro_img_handling .semanticFailure files loc
        nextRandLoc).1, isExposureScratch f = false) ∧
      (step_astro_img_handling .semanticFailure files loc
        nextRandLoc).2.1 = nextRandLoc) ∧
    (∀ (files : List String) (loc nextRandLoc : Loc),
      (∀ f ∈ (step_generate_images .semanticFailure true files loc
        nextRandLoc).1, isExposureScratch f = false) ∧
      (step_generate_images .semanticFailure true files loc
        nextRandLoc).2.1 = nextRandLoc) := by
  refine ⟨?_, ?_, ?_, ?_⟩
  · intro oracle fuel s rest cur prev trace rem hcur ho
    exact runLoop_sem_cons oracle fuel s rest cur prev trace rem hcur ho
  · intro oracle fuel samples cur prev trace remaining l h
    exact runLoop_commit_success oracle fuel samples cur prev trace
      remaining l h
  · intro files loc nextRandLoc
    refine ⟨?_, rfl⟩
    intro f hf
    have h2 := (List.mem_filter.mp hf).2
    simpa using h2
  · intro files loc nextRandLoc
    refine ⟨?_, rfl⟩
    intro f hf
    have h2 := (List.mem_filter.mp hf).2
    simpa using h2

/-- Witness for the amended C3 at concrete runs and file states. -/
theorem claim_C3_witness :
    (runLoop oracleC3 6 [(3, 4)] (1, 2) [] [] 1 =
      runLoop oracleC3 5 [] (3, 4) [] [(1, 2)] 1) ∧
    ((3, 4) ∈ ([] : List Loc) ∨ oracleC3 (3, 4) = .success) ∧
    (step_astro_img_handling .semanticFailure ["exposure_1.jpeg"] (1, 1)
      (2, 2)).2.1 = (2, 2) ∧
    (step_generate_images .semanticFailure true ["exposure_1.jpeg"] (1, 1)
      (2, 2)).2.1 = (2, 2) :=
  ⟨claim_C3_semantic_failure_amended.1 oracleC3 5 (3, 4) [] (1, 2) [] [] 0
      (by decide) (by decide),
   claim_C3_semantic_failure_amended.2.1 oracleC3 10 [(3, 4), (1, 2)] (1, 2)
      [] [] 2 (3, 4) (by decide),
   (claim_C3_semantic_failure_amended.2.2.1 ["exposure_1.jpeg"] (1, 1)
      (2, 2)).2,
   (claim_C3_semantic_failure_amended.2.2.2 ["exposure_1.jpeg"] (1, 1)
      (2, 2)).2⟩

/-! # Lemmas about half-even rounding -/

theorem roundHalfEven_cases {α : Type} [LinearOrderedField α] [FloorRing α]
    (x : α) :
    roundHalfEven x = Int.floor x ∨
      (roundHalfEven x = Int.floor x + 1 ∧ ¬ (x - Int.floor x < 1 / 2)) := by
  unfold roundHalfEven
  split
  · exact Or.inl rfl
  · rename_i h1
    split
    · exact Or.inr ⟨rfl, h1⟩
    · split
      · exact Or.inl rfl
      · exact Or.inr ⟨rfl, h1⟩

theorem roundHalfEven_le {α : Type} [LinearOrderedField α] [FloorRing α]
    (x : α) (n : ℤ) (h : x ≤ (n : α)) : roundHalfEven x ≤ n := by
  have hfl : Int.floor x ≤ n := by
    have h2 := Int.floor_mono h
    simpa using h2
  rcases roundHalfEven_cases x with h1 | ⟨h1, h2⟩
  · rw [h1]
    exact hfl
  · rw [h1]
    by_contra hcon
    push_neg at hcon
    have heq : Int.floor x = n := by omega
    apply h2
    rw [heq]
    have h3 : x - (n : α) ≤ 0 := by linarith
    linarith

theorem le_roundHalfEven {α : Type} [LinearOrderedField α] [FloorRing α]
    (x : α) (n : ℤ) (h : (n : α) ≤ x) : n ≤ roundHalfEven x := by
  have hfl : n ≤ Int.floor x := Int.le_floor.mpr h
  rcases roundHalfEven_cases x with h1 | ⟨h1, _⟩
  · rw [h1]
    exact hfl
  · rw [h1]
    omega

theorem round3_le {α : Type} [LinearOrderedField α] [FloorRing α]
    (x : α) (n : ℤ) (h : x ≤ (n : α)) : round3 x ≤ (n : α) := by
  unfold round3
  rw [div_le_iff₀ (by norm_num : (0 : α) < 1000)]
  have h1 : x * 1000 ≤ ((n * 1000 : ℤ) : α) := by
    push_cast
    linarith
  have h2 := roundHalfEven_le (x * 1000) (n * 1000) h1
  calc ((roundHalfEven (x * 1000) : ℤ) : α) ≤ ((n * 1000 : ℤ) : α) := by
        exact_mod_cast h2
    _ = (n : α) * 1000 := by push_cast; ring

theorem le_round3 {α : Type} [LinearOrderedField α] [FloorRing α]
    (x : α) (n : ℤ) (h : (n : α) ≤ x) : (n : α) ≤ round3 x := by
  unfold round3
  rw [le_div_iff₀ (by norm_num : (0 : α) < 1000)]
  have h1 : ((n * 1000 : ℤ) : α) ≤ x * 1000 := by
    push_cast
    linarith
  have h2 := le_roundHalfEven (x * 1000) (n * 1000) h1
  calc (n : α) * 1000 = ((n * 1000 : ℤ) : α) := by push_cast; ring
    _ ≤ ((roundHalfEven (x * 1000) : ℤ) : α) := by exact_mod_cast h2

/-! # Claim C4 -/

/-- C4 counterexample: the draw u = 359.9999 lies inside the sampler's
uniform range [0, 360), yet rounding to three decimals yields a right
ascension of exactly 360, outside the claimed [0, 360). -/
theorem claim_C4_counterexample :
    0 ≤ (3599999 / 10000 : ℝ) ∧ (3599999 / 10000 : ℝ) < 360 ∧
    (gen_rand_loc (3599999 / 10000) 0).1 = 360 := by
  refine ⟨by norm_num, by norm_num, ?_⟩
  show round3 ((3599999 / 10000 : ℝ)) = 360
  unfold round3
  have hmul : (3599999 / 10000 : ℝ) * 1000 = 3599999 / 10 := by ring
  rw [hmul]
  have hfloor : Int.floor ((3599999 / 10 : ℝ)) = 359999 := by
    rw [Int.floor_eq_iff]
    constructor
    · norm_num
    · norm_num
  have hr : roundHalfEven ((3599999 / 10 : ℝ)) = 360000 := by
    unfold roundHalfEven
    rw [hfloor]
    norm_num
  rw [hr]
  norm_num

/-- C4 amended: every sampled location satisfies
rightAscension ∈ [0, 360] (the right endpoint is attainable through
rounding, hence the closed interval) and declination ∈ [-90, 90]; within a
run the visited list stays duplicate-free and only fully successful
attempts are committed to it (already-visited draws are rejected and
redrawn). -/
theorem claim_C4_sampler_amended :
    (∀ u v : ℝ, 0 ≤ u → u < 360 →
      0 ≤ (gen_rand_loc u v).1 ∧ (gen_rand_loc u v).1 ≤ 360 ∧
      -90 ≤ (gen_rand_loc u v).2 ∧ (gen_rand_loc u v).2 ≤ 90) ∧
    (∀ (oracle : Loc → AttemptOutcome) (fuel : Nat) (samples : List Loc)
        (cur : Loc) (prev trace : List Loc) (remaining : Nat),
      prev.Nodup →
      ((runLoop oracle fuel samples cur prev trace remaining).1).Nodup) ∧
    (∀ (oracle : Loc → AttemptOutcome) (fuel : Nat) (samples : List Loc)
        (cur : Loc) (prev trace : List Loc) (remaining : Nat) (l : Loc),
      l ∈ (runLoop oracle fuel samples cur prev trace remaining).1 →
      l ∈ prev ∨ oracle l = .success) := by
  refine ⟨?_, ?_, ?_⟩
  · intro u v h0 h360
    unfold gen_rand_loc
    have hpi : (0 : ℝ) < Real.pi := Real.pi_pos
    have harc1 : -(Real.pi / 2) ≤ Real.arcsin v := Real.neg_pi_div_two_le_arcsin v
    have harc2 : Real.arcsin v ≤ Real.pi / 2 := Real.arcsin_le_pi_div_two v
    have hd1 : (-90 : ℝ) ≤ Real.arcsin v * (180 / Real.pi) := by
      have h1 : -(Real.pi / 2) * (180 / Real.pi) ≤
          Real.arcsin v * (180 / Real.pi) :=
        mul_le_mul_of_nonneg_right harc1 (by positivity)
      have h2 : -(Real.pi / 2) * (180 / Real.pi) = -90 := by
        field_simp
        ring
      linarith
    have hd2 : Real.arcsin v * (180 / Real.pi) ≤ 90 := by
      have h1 : Real.arcsin v * (180 / Real.pi) ≤
          (Real.pi / 2) * (180 / Real.pi) :=
        mul_le_mul_of_nonneg_right harc2 (by positivity)
      have h2 : (Real.pi / 2) * (180 / Real.pi) = 90 := by
        field_simp
        ring
      linarith
    refine ⟨?_, ?_, ?_, ?_⟩
    · have := le_round3 u 0 (by exact_mod_cast h0)
      simpa using this
    · have := round3_le u 360 (by exact_mod_cast h360.le)
      simpa using this
    · have := le_round3 (Real.arcsin v * (180 / Real.pi)) (-90)
        (by exact_mod_cast hd1)
      simpa using this
    · have := round3_le (Real.arcsin v * (180 / Real.pi)) 90
        (by exact_mod_cast hd2)
      simpa using this
  · intro oracle fuel samples cur prev trace remaining h
    exact runLoop_nodup oracle fuel samples cur prev trace remaining h
  · intro oracle fuel samples cur prev trace remaining l h
    exact runLoop_commit_success oracle fuel samples cur prev trace
      remaining l h

/-- Witness for the amended C4 at the draws u = 0, v = 0 and a concrete
run. -/
theorem claim_C4_witness :
    (0 ≤ (gen_rand_loc 0 0).1 ∧ (gen_rand_loc 0 0).1 ≤ 360 ∧
      -90 ≤ (gen_rand_loc 0 0).2 ∧ (gen_rand_loc 0 0).2 ≤ 90) ∧
    ((runLoop oracleC3 10 [(3, 4), (1, 2)] (1, 2) [] [] 2).1).Nodup ∧
    ((3, 4) ∈ ([] : List Loc) ∨ oracleC3 (3, 4) = .success) :=
  ⟨claim_C4_sampler_amended.1 0 0 le_rfl (by norm_num),
   claim_C4_sampler_amended.2.1 oracleC3 10 [(3, 4), (1, 2)] (1, 2) [] [] 2
     List.nodup_nil,
   claim_C4_sampler_amended.2.2 oracleC3 10 [(3, 4), (1, 2)] (1, 2) [] [] 2
     (3, 4) (by decide)⟩

/-! # Claim C5 -/

/-- C5: the non-zoomed straightening path does not compute the arctangent
of the corner slope: the source applies math.tan to the slope and converts
that value to degrees.  At slope 1 (top corner (0,0), right corner (1,1))
the intended atan-style angle is 45, while the code's value is at least
46 (it is int(tan(1) * 180 / pi) = 89), so the two disagree. -/
theorem claim_C5_theta_uses_tan_not_atan :
    straighten_theta_spec (0, 0) (1, 1) = 45 ∧
    46 ≤ straighten_theta (0, 0) (1, 1) ∧
    straighten_theta (0, 0) (1, 1) ≠ straighten_theta_spec (0, 0) (1, 1) := by
  have hpi : (0 : ℝ) < Real.pi := Real.pi_pos
  have hspec : straighten_theta_spec (0, 0) (1, 1) = 45 := by
    unfold straighten_theta_spec
    norm_num
    have harg : Real.pi / 4 * 180 / Real.pi = 45 := by
      field_simp
      ring
    rw [harg]
    unfold truncInt
    rw [if_pos (by norm_num : (0 : ℝ) ≤ 45)]
    rw [show (45 : ℝ) = ((45 : ℤ) : ℝ) by norm_num, Int.floor_intCast]
  have htan : (1 : ℝ) < Real.tan 1 := by
    have h1 : (1 : ℝ) < Real.pi / 2 := by
      have := Real.pi_gt_three
      linarith
    exact Real.lt_tan one_pos h1
  have harg : (46 : ℝ) ≤ Real.tan 1 * 180 / Real.pi := by
    have hlt : Real.pi < 3.15 := Real.pi_lt_d2
    rw [le_div_iff₀ hpi]
    nlinarith
  have hcode : 46 ≤ straighten_theta (0, 0) (1, 1) := by
    unfold straighten_theta
    norm_num
    unfold truncInt
    rw [if_pos (by linarith : (0 : ℝ) ≤ Real.tan 1 * 180 / Real.pi)]
    exact Int.le_floor.mpr (by exact_mod_cast harg)
  refine ⟨hspec, hcode, ?_⟩
  rw [hspec]
  omega

/-! # Lemmas about the histogram and its cumulative sum -/

theorem arrMin_cons (x : Nat) (xs : List Nat) :
    arrMin (x :: xs) = xs.foldl Nat.min x := rfl

theorem arrMax_cons (x : Nat) (xs : List Nat) :
    arrMax (x :: xs) = xs.foldl Nat.max x := rfl

theorem hist_eq_zero_of_not_mem {m : List (List Nat)} {v : Nat}
    (h : ∀ row ∈ m, v ∉ row) : hist m v = 0 := by
  unfold hist
  rw [List.length_eq_zero, List.filter_eq_nil_iff]
  intro row hrow
  simpa using h row hrow

theorem cdf_mono (m : List (List Nat)) {i j : Nat} (h : i ≤ j) :
    cdf m i ≤ cdf m j := by
  unfold cdf
  exact Finset.sum_le_sum_of_subset (Finset.range_subset.mpr (by omega))

theorem cdf_two_level (m : List (List Nat)) (b : Nat) (hb : 0 < b)
    (hall : ∀ row ∈ m, ∀ p ∈ row, p = 0 ∨ p = b) (i : Nat) :
    cdf m i = hist m 0 + (if b ≤ i then hist m b else 0) := by
  unfold cdf
  have hsupp : ∀ v ∈ Finset.range (i + 1), hist m v =
      (if v = 0 then hist m 0 else 0) + (if v = b then hist m b else 0) := by
    intro v _
    by_cases h0 : v = 0
    · subst h0
      rw [if_pos rfl, if_neg (by omega)]
      omega
    · by_cases hvb : v = b
      · subst hvb
        rw [if_neg h0, if_pos rfl]
        omega
      · rw [if_neg h0, if_neg hvb]
        have hz : hist m v = 0 := by
          apply hist_eq_zero_of_not_mem
          intro row hrow hmem
          rcases hall row hrow v hmem with h1 | h1
          · exact h0 h1
          · exact hvb h1
        omega
  rw [Finset.sum_congr rfl hsupp, Finset.sum_add_distrib,
    Finset.sum_ite_eq' (Finset.range (i + 1)) 0 (fun _ => hist m 0),
    Finset.sum_ite_eq' (Finset.range (i + 1)) b (fun _ => hist m b)]
  simp only [Finset.mem_range]
  by_cases hbi : b ≤ i
  · rw [if_pos (by omega : 0 < i + 1), if_pos (by omega : b < i + 1),
      if_pos hbi]
  · rw [if_pos (by omega : 0 < i + 1), if_neg (by omega : ¬ b < i + 1),
      if_neg hbi]

theorem foldl_min_eq_self (xs : List Nat) :
    ∀ x : Nat, (∀ y ∈ xs, x ≤ y) → xs.foldl Nat.min x = x := by
  induction xs with
  | nil => intro x _; rfl
  | cons y ys ih =>
    intro x h
    have hy := h y (List.mem_cons_self y ys)
    have hxy : Nat.min x y = x := Nat.min_eq_left hy
    simp only [List.foldl_cons, hxy]
    exact ih x fun z hz => h z (List.mem_cons_of_mem y hz)

theorem foldl_max_le (xs : List Nat) :
    ∀ x M : Nat, x ≤ M → (∀ y ∈ xs, y ≤ M) → xs.foldl Nat.max x ≤ M := by
  induction xs with
  | nil => intro x M hx _; simpa using hx
  | cons y ys ih =>
    intro x M hx h
    simp only [List.foldl_cons]
    refine ih _ _ ?_ fun z hz => h z (List.mem_cons_of_mem y hz)
    have hy := h y (List.mem_cons_self y ys)
    exact Nat.max_le.mpr ⟨hx, hy⟩

theorem le_foldl_max (xs : List Nat) : ∀ x : Nat, x ≤ xs.foldl Nat.max x := by
  induction xs with
  | nil => intro x; simp
  | cons y ys ih =>
    intro x
    simp only [List.foldl_cons]
    exact le_trans (Nat.le_max_left x y) (ih (Nat.max x y))

theorem le_foldl_max_of_mem (xs : List Nat) :
    ∀ x y : Nat, y ∈ xs → y ≤ xs.foldl Nat.max x := by
  induction xs with
  | nil => intro x y h; cases h
  | cons z zs ih =>
    intro x y h
    simp only [List.foldl_cons]
    rcases List.mem_cons.mp h with h1 | h1
    · subst h1
      exact le_trans (Nat.le_max_right x y) (le_foldl_max zs (Nat.max x y))
    · exact ih (Nat.max x z) y h1

theorem cdfList_eq (m : List (List Nat)) :
    cdfList m = cdf m 0 :: ((List.range 255).map (fun k => cdf m (k + 1))) := by
  unfold cdfList
  rw [show (256 : Nat) = 255 + 1 from rfl, List.range_succ_eq_map]
  simp [List.map_map, Function.comp]

theorem arrMin_cdfList (m : List (List Nat)) :
    arrMin (cdfList m) = cdf m 0 := by
  rw [cdfList_eq, arrMin_cons]
  apply foldl_min_eq_self
  intro y hy
  simp only [List.mem_map] at hy
  obtain ⟨k, _, rfl⟩ := hy
  exact cdf_mono m (by omega)

theorem arrMax_cdfList (m : List (List Nat)) :
    arrMax (cdfList m) = cdf m 255 := by
  rw [cdfList_eq, arrMax_cons]
  apply le_antisymm
  · apply foldl_max_le
    · exact cdf_mono m (by omega)
    · intro y hy
      simp only [List.mem_map] at hy
      obtain ⟨k, hk, rfl⟩ := hy
      simp only [List.mem_range] at hk
      exact cdf_mono m (by omega)
  · apply le_foldl_max_of_mem
    simp only [List.mem_map]
    exact ⟨254, by simp, rfl⟩

/-! # Claim C6 -/

set_option maxRecDepth 20000 in
/-- C6 counterexample: the buffer [[100, 200]] takes exactly the two
intensity values 100 and 200, yet equalization maps the lower value 100 to
127, not 0 (the array minimum of the cumulative sum is its first entry,
which is 0 whenever the lower level is positive). -/
theorem claim_C6_counterexample :
    (∀ row ∈ [[100, 200]], ∀ p ∈ row, p = 100 ∨ p = 200) ∧
    (100 : Nat) < 200 ∧ (200 : Nat) ≤ 255 ∧
    enhance_contrast [[100, 200]] = [[127, 255]] ∧ (127 : Nat) ≠ 0 :=
  ⟨by decide, by decide, by decide, by decide, by decide⟩

/-- C6 amended: for every buffer taking exactly the two distinct values
0 and b (with 0 < b ≤ 255), histogram equalization maps every 0-pixel to 0
and every b-pixel to 255; when the lower value is positive the lower level
is instead sent to a generally nonzero value. -/
theorem claim_C6_histogram_equalization_amended :
    ∀ (m : List (List Nat)) (b : Nat), 0 < b → b ≤ 255 →
    (∀ row ∈ m, ∀ p ∈ row, p = 0 ∨ p = b) →
    (∃ row ∈ m, 0 ∈ row) → (∃ row ∈ m, b ∈ row) →
    lut m 0 = 0 ∧ lut m b = 255 ∧
    enhance_contrast m =
      m.map (fun row => row.map (fun p => if p = 0 then 0 else 255)) := by
  intro m b hb hb255 hall hex0 hexb
  have hh0 : 0 < hist m 0 := by
    obtain ⟨row, hrow, hmem⟩ := hex0
    have hmemf : row ∈ m.filter (fun row => decide ((0 : Nat) ∈ row)) :=
      List.mem_filter.mpr ⟨hrow, by simpa using hmem⟩
    exact List.length_pos_of_mem hmemf
  have hhb : 0 < hist m b := by
    obtain ⟨row, hrow, hmem⟩ := hexb
    have hmemf : row ∈ m.filter (fun row => decide (b ∈ row)) :=
      List.mem_filter.mpr ⟨hrow, by simpa using hmem⟩
    exact List.length_pos_of_mem hmemf
  have hcdf := cdf_two_level m b hb hall
  have hmin : arrMin (cdfList m) = hist m 0 := by
    rw [arrMin_cdfList, hcdf 0, if_neg (by omega : ¬ b ≤ 0)]
    omega
  have hmax : arrMax (cdfList m) = hist m 0 + hist m b := by
    rw [arrMax_cdfList, hcdf 255, if_pos hb255]
  have hlut0 : lut m 0 = 0 := by
    unfold lut
    rw [hmin, hmax, hcdf 0, if_neg (by omega : ¬ b ≤ 0)]
    simp
  have hlutb : lut m b = 255 := by
    unfold lut
    rw [hmin, hmax, hcdf b, if_pos (le_refl b), Nat.add_sub_cancel_left]
    exact Nat.mul_div_cancel_left 255 hhb
  refine ⟨hlut0, hlutb, ?_⟩
  unfold enhance_contrast
  apply List.map_congr_left
  intro row hrow
  apply List.map_congr_left
  intro p hp
  rcases hall row hrow p hp with h1 | h1
  · rw [h1, if_pos rfl]
    exact hlut0
  · rw [h1, if_neg (by omega : ¬ b = 0)]
    exact hlutb

/-- Witness for the amended C6 at the two-level buffer
[[0, 200], [200, 0]]. -/
theorem claim_C6_witness :
    lut [[0, 200], [200, 0]] 0 = 0 ∧ lut [[0, 200], [200, 0]] 200 = 255 ∧
    enhance_contrast [[0, 200], [200, 0]] =
      [[0, 200], [200, 0]].map
        (fun row => row.map (fun p => if p = 0 then 0 else 255)) :=
  claim_C6_histogram_equalization_amended [[0, 200], [200, 0]] 200
    (by decide) (by decide) (by decide) (by decide) (by decide)

end COC
